import Mathlib

/-!
Verification of the duplicate-file-report pipeline (duplicates.py).

The module is embedded shallowly:

* A row of the `file` table is a `FileRecord`; the persisted store is a
  `List FileRecord` (one row per record, `location` is the primary key).
* Strings from the source are represented as `List Char`; SQLite compares
  TEXT values by byte order of their UTF-8 encodings, which coincides with
  lexicographic order on code points, i.e. the Mathlib linear order on
  `List Char`.
* SQL queries are translated to list operations: `GROUP BY ... HAVING
  count(*) > 1` becomes a `countP` test, `ORDER BY` becomes sorting by the
  corresponding key (`insertionSort`; SQL sort output is characterized
  only up to sortedness and permutation, which the theorems state), and
  `IN (subquery)` becomes the membership test, with SQL NULL
  (`Option.none`) excluded as in SQLite.
* The hasher (`make_hash(start / location).hexdigest()`) is an opaque
  function from the record's location to a digest string; the model
  records the list of locations it is invoked on, in invocation order.
-/

/-- One row of the `file` table declared by the mapped class `File`:
columns `location` (TEXT PRIMARY KEY), `md5sum` (TEXT, nullable),
`size` (INTEGER NOT NULL), `mtime` (DATETIME NOT NULL, kept opaque),
`name` (TEXT NOT NULL), `ext` (TEXT NOT NULL). -/
structure FileRecord where
  location : List Char
  md5sum : Option (List Char)
  size : Int
  mtime : Int
  name : List Char
  ext : List Char
deriving DecidableEq

/-- The HAVING clause of `select_duped_sizes` in `add_md5sums`: size `s`
is selected when at least two rows of the store carry it. -/
def duplicated_size (db : List FileRecord) (s : Int) : Bool :=
  decide (2 ≤ db.countP (fun q => decide (q.size = s)))

/-- The query executed by `add_md5sums`: locations of the rows whose size
is shared with another row (`File.size.in_(select_duped_sizes)`),
ordered by location ascending (`order_by(File.location)`). -/
def select_size_collisions (db : List FileRecord) : List (List Char) :=
  ((db.filter (fun r => duplicated_size db r.size)).map
    (fun r => r.location)).insertionSort (fun a b => a ≤ b)

/-- The UPDATE statement of `add_md5sums`: set `md5sum` of the row whose
location equals `loc` to `digest`. -/
def update_md5sum (loc digest : List Char) (db : List FileRecord) :
    List FileRecord :=
  db.map (fun r => if r.location = loc then { r with md5sum := some digest } else r)

/-- The body of `add_md5sums`: run the size-collision query, and for each
returned location (in query order) invoke the hasher on it and write the
digest back.  The first component is the list of locations the hasher was
invoked on, in invocation order; the second is the updated store. -/
def add_md5sums (hasher : List Char → List Char) (db : List FileRecord) :
    List (List Char) × List FileRecord :=
  let locs := select_size_collisions db
  (locs, locs.foldl (fun acc loc => update_md5sum loc (hasher loc) acc) db)

/-- The WHERE clause of `get_duplicates_query`:
`File.md5sum.in_(select_duped_md5sums)`.  A row with SQL NULL `md5sum`
never satisfies an IN test, so only rows with a present digest shared by
at least two rows qualify. -/
def dup_md5 (db : List FileRecord) (r : FileRecord) : Bool :=
  match r.md5sum with
  | some m => decide (2 ≤ db.countP (fun q => decide (q.md5sum = some m)))
  | none => false

/-- Strict comparison of nullable TEXT values as SQLite orders them
ascending: NULL sorts before every string, strings compare by byte order. -/
def optLt : Option (List Char) → Option (List Char) → Prop
  | none, none => False
  | none, some _ => True
  | some _, none => False
  | some x, some y => x < y

instance : ∀ (a b : Option (List Char)), Decidable (optLt a b)
  | none, none => isFalse (fun h => h)
  | none, some _ => isTrue trivial
  | some _, none => isFalse (fun h => h)
  | some x, some y => inferInstanceAs (Decidable (x < y))

/-- ORDER BY `location` (the `by_location` mode of `get_duplicates_query`). -/
def locationLe (r s : FileRecord) : Prop :=
  r.location ≤ s.location

instance : DecidableRel locationLe := fun r s =>
  inferInstanceAs (Decidable (r.location ≤ s.location))

/-- ORDER BY `md5sum, location` (the default mode of
`get_duplicates_query`): lexicographic on the digest (NULLs first, as in
SQLite ascending order) and then the location. -/
def hashLocLe (r s : FileRecord) : Prop :=
  optLt r.md5sum s.md5sum ∨ (r.md5sum = s.md5sum ∧ r.location ≤ s.location)

instance : DecidableRel hashLocLe := fun r s =>
  inferInstanceAs (Decidable (optLt r.md5sum s.md5sum ∨
    (r.md5sum = s.md5sum ∧ r.location ≤ s.location)))

/-- The SELECT built by `get_duplicates_query(by_location)`: full rows
whose `md5sum` is non-null and shared by at least two rows, ordered by
`location` when `by_location` is set and by `(md5sum, location)` otherwise. -/
def get_duplicates_query (by_location : Bool) (db : List FileRecord) :
    List FileRecord :=
  if by_location then (db.filter (dup_md5 db)).insertionSort locationLe
  else (db.filter (dup_md5 db)).insertionSort hashLocLe

example : select_size_collisions
    [⟨['b'], none, 3, 0, ['b'], []⟩, ⟨['a'], none, 3, 0, ['a'], []⟩,
     ⟨['c'], none, 7, 0, ['c'], []⟩] = [['a'], ['b']] := by decide

example : select_size_collisions
    [⟨['a'], none, 3, 0, ['a'], []⟩, ⟨['c'], none, 7, 0, ['c'], []⟩] = [] := by
  decide

example : (get_duplicates_query false
    [⟨['b'], some ['x'], 3, 0, ['b'], []⟩, ⟨['a'], some ['x'], 3, 0, ['a'], []⟩,
     ⟨['c'], some ['y'], 3, 0, ['c'], []⟩]).map (fun r => r.location)
    = [['a'], ['b']] := by decide

/-- C1: the hashing phase invokes the hasher exactly on the records whose
size is shared with at least one other record, in ascending location
order (each exactly once, the store's locations being unique); if all
sizes are distinct, the hasher is never invoked. -/
theorem add_md5sums_hashes_exactly_size_collisions
    (hasher : List Char → List Char) (db : List FileRecord)
    (hnd : (db.map (fun r => r.location)).Nodup) :
    List.Pairwise (fun a b => a ≤ b) (add_md5sums hasher db).1 ∧
    (∀ loc, loc ∈ (add_md5sums hasher db).1 ↔
      ∃ r ∈ db, r.location = loc ∧ duplicated_size db r.size = true) ∧
    (add_md5sums hasher db).1.Nodup ∧
    ((db.map (fun r => r.size)).Nodup → (add_md5sums hasher db).1 = []) := by
  have hfst : (add_md5sums hasher db).1 = select_size_collisions db := rfl
  rw [hfst]
  refine ⟨?_, ?_, ?_, ?_⟩
  · exact List.sorted_insertionSort _ _
  · intro loc
    constructor
    · intro h
      rw [select_size_collisions, List.mem_insertionSort] at h
      obtain ⟨r, hr, hl⟩ := List.mem_map.mp h
      obtain ⟨hrdb, hd⟩ := List.mem_filter.mp hr
      exact ⟨r, hrdb, hl, hd⟩
    · rintro ⟨r, hrdb, hl, hd⟩
      rw [select_size_collisions, List.mem_insertionSort]
      exact List.mem_map.mpr ⟨r, List.mem_filter.mpr ⟨hrdb, hd⟩, hl⟩
  · have hsub :
        ((db.filter (fun r => duplicated_size db r.size)).map
          (fun r => r.location)).Sublist (db.map (fun r => r.location)) :=
      List.Sublist.map _ (List.filter_sublist db)
    exact ((List.perm_insertionSort _ _).nodup_iff).mpr (hsub.nodup hnd)
  · intro hsz
    have hfil : db.filter (fun r => duplicated_size db r.size) = [] := by
      rw [List.filter_eq_nil_iff]
      intro r hr hdup
      rw [duplicated_size, decide_eq_true_eq] at hdup
      have h1 : List.count r.size (db.map (fun q => q.size)) ≤ 1 :=
        List.nodup_iff_count_le_one.mp hsz r.size
      have h2 : List.count r.size (db.map (fun q => q.size))
          = db.countP (fun q => decide (q.size = r.size)) := by
        show List.countP (fun x => decide (x = r.size)) (db.map fun q => q.size) = _
        rw [List.countP_map]
        rfl
      omega
    rw [select_size_collisions, hfil]
    rfl

/-- A small populated store used to instantiate the claim theorems:
two records of equal size, one of a different size, locations distinct. -/
def dbW : List FileRecord :=
  [⟨['a'], none, 3, 0, ['a'], []⟩, ⟨['b'], none, 3, 0, ['b'], []⟩,
   ⟨['c'], none, 7, 0, ['c'], []⟩]

theorem add_md5sums_hashes_exactly_size_collisions_witness :
    (dbW.map (fun r => r.location)).Nodup ∧
    (List.Pairwise (fun a b => a ≤ b) (add_md5sums (fun l => l) dbW).1 ∧
     (∀ loc, loc ∈ (add_md5sums (fun l => l) dbW).1 ↔
       ∃ r ∈ dbW, r.location = loc ∧ duplicated_size dbW r.size = true) ∧
     (add_md5sums (fun l => l) dbW).1.Nodup ∧
     ((dbW.map (fun r => r.size)).Nodup → (add_md5sums (fun l => l) dbW).1 = [])) :=
  ⟨by decide,
   add_md5sums_hashes_exactly_size_collisions (fun l => l) dbW (by decide)⟩

theorem optLt_trans : ∀ {a b c : Option (List Char)},
    optLt a b → optLt b c → optLt a c
  | none, none, _, h1, _ => h1.elim
  | none, some _, none, _, h2 => h2.elim
  | none, some _, some _, _, _ => trivial
  | some _, none, _, h1, _ => h1.elim
  | some _, some _, none, _, h2 => h2.elim
  | some _, some _, some _, h1, h2 => lt_trans h1 h2

instance : IsTrans FileRecord locationLe :=
  ⟨fun _ _ _ h1 h2 => le_trans h1 h2⟩

instance : IsTotal FileRecord locationLe :=
  ⟨fun a b => le_total a.location b.location⟩

instance : IsTrans FileRecord hashLocLe := ⟨by
  rintro a b c (h1 | ⟨e1, l1⟩) (h2 | ⟨e2, l2⟩)
  · exact Or.inl (optLt_trans h1 h2)
  · exact Or.inl (e2 ▸ h1)
  · exact Or.inl (by rw [e1]; exact h2)
  · exact Or.inr ⟨e1.trans e2, le_trans l1 l2⟩⟩

instance : IsTotal FileRecord hashLocLe := ⟨by
  intro a b
  rcases ha : a.md5sum with _ | x <;> rcases hb : b.md5sum with _ | y
  · rcases le_total a.location b.location with h | h
    · exact Or.inl (Or.inr ⟨by rw [ha, hb], h⟩)
    · exact Or.inr (Or.inr ⟨by rw [ha, hb], h⟩)
  · exact Or.inl (Or.inl (by rw [ha, hb]; trivial))
  · exact Or.inr (Or.inl (by rw [ha, hb]; trivial))
  · rcases lt_trichotomy x y with h | h | h
    · exact Or.inl (Or.inl (by rw [ha, hb]; exact h))
    · subst h
      rcases le_total a.location b.location with h | h
      · exact Or.inl (Or.inr ⟨by rw [ha, hb], h⟩)
      · exact Or.inr (Or.inr ⟨by rw [ha, hb], h⟩)
    · exact Or.inr (Or.inl (by rw [ha, hb]; exact h))⟩

theorem dup_md5_eq_true_iff (db : List FileRecord) (r : FileRecord) :
    dup_md5 db r = true ↔
    ∃ m, r.md5sum = some m ∧
      2 ≤ db.countP (fun q => decide (q.md5sum = some m)) := by
  rcases h : r.md5sum with _ | m
  · simp [dup_md5, h]
  · simp [dup_md5, h]

/-- C2: for every store, the duplicate-group query returns exactly the
full records whose digest is present and shared by at least two records;
the default mode is sorted by (md5sum, location), the by-location mode by
location; no record with a NULL or unique digest appears. -/
theorem get_duplicates_query_exact (db : List FileRecord) :
    (∀ b, (get_duplicates_query b db).Perm (db.filter (dup_md5 db))) ∧
    (∀ b r, r ∈ get_duplicates_query b db ↔
      r ∈ db ∧ ∃ m, r.md5sum = some m ∧
        2 ≤ db.countP (fun q => decide (q.md5sum = some m))) ∧
    (∀ b r, r ∈ get_duplicates_query b db → r.md5sum ≠ none) ∧
    List.Pairwise hashLocLe (get_duplicates_query false db) ∧
    List.Pairwise locationLe (get_duplicates_query true db) := by
  have hmem : ∀ b r, r ∈ get_duplicates_query b db ↔
      r ∈ db ∧ ∃ m, r.md5sum = some m ∧
        2 ≤ db.countP (fun q => decide (q.md5sum = some m)) := by
    intro b r
    have h1 : r ∈ get_duplicates_query b db ↔ r ∈ db.filter (dup_md5 db) := by
      cases b <;> simp [get_duplicates_query, List.mem_insertionSort]
    rw [h1, List.mem_filter, dup_md5_eq_true_iff]
  refine ⟨?_, hmem, ?_, ?_, ?_⟩
  · intro b
    cases b <;> simp only [get_duplicates_query, if_true, if_false,
      Bool.false_eq_true, Bool.true_eq_false, ite_true, ite_false] <;>
      exact List.perm_insertionSort _ _
  · intro b r hr
    obtain ⟨-, m, hm, -⟩ := (hmem b r).mp hr
    rw [hm]
    exact Option.some_ne_none m
  · have : get_duplicates_query false db
        = (db.filter (dup_md5 db)).insertionSort hashLocLe := by
      simp [get_duplicates_query]
    rw [this]
    exact List.sorted_insertionSort _ _
  · have : get_duplicates_query true db
        = (db.filter (dup_md5 db)).insertionSort locationLe := by
      simp [get_duplicates_query]
    rw [this]
    exact List.sorted_insertionSort _ _

/-- The column names of the `file` table in declaration order; this is
what `result.keys()` yields for `sa.select(File)` and what `to_csv`
writes as the header row. -/
def fileColumnNames : List String :=
  ["location", "md5sum", "size", "mtime", "name", "ext"]

/-- Modelled from the spec for comparison with the code: the header row
the spec claims the report carries (it names the timestamp column
`modified_at`). -/
def specClaimedColumnNames : List String :=
  ["location", "md5sum", "size", "modified_at", "name", "ext"]

/-- One CSV data row for a record: the row tuple delivered by the query,
cell-serialized (SQL NULL prints as the empty cell).  The low-level CSV
quoting of the `csv.writer` is external and not modelled. -/
def fileRow (r : FileRecord) : List String :=
  [String.mk r.location,
   (match r.md5sum with | none => "" | some m => String.mk m),
   toString r.size, toString r.mtime, String.mk r.name, String.mk r.ext]

/-- The body of `to_csv`: one `writer.writerow(result.keys())` for the
header and then `writer.writerows(result)`, in the order the query
delivered the rows. -/
def to_csv (result : List FileRecord) : List (List String) :=
  fileColumnNames :: result.map fileRow

/-- C3 counterexample: the header row written by `to_csv` names the
timestamp column `mtime`, not `modified_at` as the claim states. -/
theorem to_csv_header_counterexample :
    to_csv [] = [fileColumnNames] ∧ fileColumnNames ≠ specClaimedColumnNames :=
  ⟨rfl, by decide⟩

/-- C3 (amended): the export is the header row of the actual column names
`location, md5sum, size, mtime, name, ext` followed by exactly one row
per record, in exactly the order the query delivered them. -/
theorem to_csv_exact_rows (result : List FileRecord) :
    (to_csv result).head? = some fileColumnNames ∧
    (to_csv result).drop 1 = result.map fileRow ∧
    (to_csv result).length = result.length + 1 := by
  refine ⟨rfl, rfl, ?_⟩
  simp [to_csv]

/-- The metadata captured for one file by `get_file_params` (the `md5sum`
column is not among the inserted columns; it starts out NULL). -/
structure FileInfo where
  location : List Char
  name : List Char
  ext : List Char
  size : Int
  mtime : Int
deriving DecidableEq

/-- The row inserted for one `FileInfo` by `insert_fileinfos`: every
column of the dict plus a NULL `md5sum`. -/
def toRecord (fi : FileInfo) : FileRecord :=
  ⟨fi.location, none, fi.size, fi.mtime, fi.name, fi.ext⟩

/-- The body of `insert_fileinfos`: executemany of the INSERT over the
traversal output, appending one row per yielded file. -/
def insert_fileinfos (db : List FileRecord) (infos : List FileInfo) :
    List FileRecord :=
  db ++ infos.map toRecord

/-- What a call to `build_db` did: whether the filesystem was traversed
(and its records inserted), and which locations were hashed. -/
structure BuildTrace where
  traversed : Bool
  inserted : List FileRecord
  hashCalls : List (List Char)
deriving DecidableEq

/-- The body of `build_db`: if the store file exists and `recreate` is
false, return immediately; otherwise (after dropping any existing store
file) create the schema, insert the traversal output (`infos`, the
materialized `get_file_params` stream) and run `add_md5sums`.
`store = none` models an absent store file. -/
def build_db (hasher : List Char → List Char) (infos : List FileInfo)
    (recreate : Bool) (store : Option (List FileRecord)) :
    Option (List FileRecord) × BuildTrace :=
  match store, recreate with
  | some rows, false => (some rows, ⟨false, [], []⟩)
  | _, _ =>
    let inserted := insert_fileinfos [] infos
    let hashed := add_md5sums hasher inserted
    (some hashed.2, ⟨true, inserted, hashed.1⟩)

/-- The body of `main`: `build_db(recreate=False)` followed by the
duplicate query in default order and the CSV export. -/
def main_run (hasher : List Char → List Char) (infos : List FileInfo)
    (store : Option (List FileRecord)) :
    Option (List FileRecord) × List (List String) :=
  let built := build_db hasher infos false store
  (built.1, to_csv (get_duplicates_query false (built.1.getD [])))

/-- C6: with an existing store and `recreate = false`, `build_db` returns
immediately: no traversal, no inserts, no hashing, store unchanged.  With
`recreate = true` the result is that of a fresh build, independent of the
prior store contents. -/
theorem build_db_noop_or_rebuild (hasher : List Char → List Char)
    (infos : List FileInfo) (rows : List FileRecord)
    (store : Option (List FileRecord)) :
    build_db hasher infos false (some rows) = (some rows, ⟨false, [], []⟩) ∧
    build_db hasher infos true store = build_db hasher infos true none := by
  constructor
  · rfl
  · cases store <;> rfl

/-- C7: running the pipeline a second time (recreate stays false, as in
`main`) over the unchanged traversal output produces the identical report
and leaves the store identical. -/
theorem main_run_idempotent (hasher : List Char → List Char)
    (infos : List FileInfo) (store : Option (List FileRecord)) :
    (main_run hasher infos (main_run hasher infos store).1).2
      = (main_run hasher infos store).2 ∧
    (main_run hasher infos (main_run hasher infos store).1).1
      = (main_run hasher infos store).1 := by
  cases store <;> exact ⟨rfl, rfl⟩

/-- The CHECK and NOT NULL constraints declared on the `file` table:
location non-empty, a present md5sum exactly 32 characters, size
non-negative, name non-empty and a (string) suffix of location
(`substr(location, -length(name)) = name`), ext empty or a suffix of
location. -/
def validRecord (r : FileRecord) : Bool :=
  decide (r.location ≠ []) &&
  (match r.md5sum with | none => true | some m => decide (m.length = 32)) &&
  decide (0 ≤ r.size) &&
  decide (r.name ≠ []) &&
  decide (r.name <:+ r.location) &&
  (decide (r.ext = []) || decide (r.ext <:+ r.location))

/-- One INSERT as SQLite executes it for the declared table: the CHECK
constraints and the `location` PRIMARY KEY are verified before the row is
stored; a violation surfaces as an integrity error naming the rejected
row and persists nothing. -/
def insertRecord (db : List FileRecord) (r : FileRecord) :
    Except FileRecord (List FileRecord) :=
  if validRecord r then
    if db.any (fun q => decide (q.location = r.location)) then Except.error r
    else Except.ok (db ++ [r])
  else Except.error r

/-- C9: a structurally invalid record (empty location, empty name, name
not a suffix of location, negative size, or a present hash whose length
is not 32) is rejected by the insert: the error surfaces and nothing is
persisted. -/
theorem invalid_insert_rejected (db : List FileRecord) (r : FileRecord)
    (h : r.location = [] ∨ r.name = [] ∨ ¬ (r.name <:+ r.location) ∨
      r.size < 0 ∨ (∃ m, r.md5sum = some m ∧ m.length ≠ 32)) :
    insertRecord db r = Except.error r := by
  have hv : validRecord r = false := by
    rcases h with h | h | h | h | ⟨m, hm, hlen⟩
    · simp [validRecord, h]
    · simp [validRecord, h]
    · simp [validRecord, h]
    · have hs : ¬ (0 ≤ r.size) := by omega
      simp [validRecord, hs]
    · simp [validRecord, hm, hlen]
  rw [insertRecord, hv]
  rfl

theorem invalid_insert_rejected_witness :
    ((⟨[], none, 3, 0, ['a'], []⟩ : FileRecord).location = [] ∨
      (⟨[], none, 3, 0, ['a'], []⟩ : FileRecord).name = [] ∨
      ¬ ((⟨[], none, 3, 0, ['a'], []⟩ : FileRecord).name <:+
          (⟨[], none, 3, 0, ['a'], []⟩ : FileRecord).location) ∨
      (⟨[], none, 3, 0, ['a'], []⟩ : FileRecord).size < 0 ∨
      (∃ m, (⟨[], none, 3, 0, ['a'], []⟩ : FileRecord).md5sum = some m ∧
        m.length ≠ 32)) ∧
    insertRecord [] ⟨[], none, 3, 0, ['a'], []⟩
      = Except.error ⟨[], none, 3, 0, ['a'], []⟩ :=
  ⟨Or.inl rfl, invalid_insert_rejected [] ⟨[], none, 3, 0, ['a'], []⟩ (Or.inl rfl)⟩

/-- One entry of a directory listing as `iterfilepaths` observes it
through `os.scandir`: `d.is_dir()` (which follows symbolic links, so a
symlink to a directory is classified `dir`) decides whether the entry is
pushed on the traversal stack or yielded.  A `dir` entry carries the node
the operating system resolves its path to (following any symlink), a
`file` entry carries the path that is yielded. -/
inductive FEntry where
  | file (path : List Char)
  | dir (node : Nat)
deriving DecidableEq

/-- A filesystem as the traverser observes it: every node either lists
its entries or fails to be listed (`OSError` from `os.scandir`: missing,
not a directory, or unreadable).  Because symbolic links are resolved by
the operating system, the node graph may be cyclic. -/
def FS : Type := Nat → Except Unit (List FEntry)

/-- The paths of the non-directory entries of a listing, in listing
order: exactly the entries `iterfilepaths` yields when it scans the
directory. -/
def filesOf (es : List FEntry) : List (List Char) :=
  es.filterMap (fun e => match e with | .file p => some p | .dir _ => none)

/-- The target nodes of the directory entries of a listing, in listing
order: what the loop collects in `dirs`. -/
def dirsOf (es : List FEntry) : List Nat :=
  es.filterMap (fun e => match e with | .file _ => none | .dir n => some n)

/-- The stack loop of `iterfilepaths`.  The Python list is popped at the
end and extended with `reversed(dirs)`, so the next directory processed
is the first subdirectory of the current one; with the stack head as top
this is exactly pushing `dirsOf` in front.  A listing error is caught
(`except OSError: continue`) and the node is skipped.  `fuel` bounds the
number of loop iterations: `none` means the stack was still non-empty
after `fuel` iterations (the traversal has not finished), `some ys` means
the traversal finished having yielded `ys` in order. -/
def walk (fs : FS) : Nat → List Nat → Option (List (List Char))
  | _, [] => some []
  | 0, _ :: _ => none
  | fuel+1, n :: rest =>
    match fs n with
    | .error _ => walk fs fuel rest
    | .ok es => (walk fs fuel (dirsOf es ++ rest)).map (fun ys => filesOf es ++ ys)

/-- `iterfilepaths(top)`: run the stack loop from the root node. -/
def iterfilepaths (fs : FS) (top : Nat) (fuel : Nat) :
    Option (List (List Char)) :=
  walk fs fuel [top]

/-- A path is reachable in the readable portion of the filesystem: it is
a non-directory entry of a directory reached from `n` through a chain of
listable directories. -/
inductive ReachFile (fs : FS) : Nat → List Char → Prop where
  | here {n es p} : fs n = .ok es → FEntry.file p ∈ es → ReachFile fs n p
  | step {n es m p} : fs n = .ok es → FEntry.dir m ∈ es →
      ReachFile fs m p → ReachFile fs n p

theorem mem_filesOf {es : List FEntry} {p : List Char} :
    p ∈ filesOf es ↔ FEntry.file p ∈ es := by
  rw [filesOf, List.mem_filterMap]
  constructor
  · rintro ⟨e, he, hp⟩
    cases e with
    | file q => simp at hp; subst hp; exact he
    | dir n => simp at hp
  · intro h
    exact ⟨FEntry.file p, h, rfl⟩

theorem mem_dirsOf {es : List FEntry} {m : Nat} :
    m ∈ dirsOf es ↔ FEntry.dir m ∈ es := by
  rw [dirsOf, List.mem_filterMap]
  constructor
  · rintro ⟨e, he, hp⟩
    cases e with
    | file q => simp at hp
    | dir n => simp at hp; subst hp; exact he
  · intro h
    exact ⟨FEntry.dir m, h, rfl⟩

theorem walk_sound (fs : FS) : ∀ (fuel : Nat) (stack : List Nat)
    (out : List (List Char)), walk fs fuel stack = some out →
    ∀ p ∈ out, ∃ n ∈ stack, ReachFile fs n p := by
  intro fuel
  induction fuel with
  | zero =>
    intro stack out h p hp
    cases stack with
    | nil =>
      rw [walk] at h
      cases h
      simp at hp
    | cons n rest => cases h
  | succ fuel ih =>
    intro stack out h p hp
    cases stack with
    | nil =>
      rw [walk] at h
      cases h
      simp at hp
    | cons n rest =>
      rw [walk] at h
      cases hfs : fs n with
      | error e =>
        rw [hfs] at h
        replace h : walk fs fuel rest = some out := h
        obtain ⟨n2, hn2, hr⟩ := ih rest out h p hp
        exact ⟨n2, List.mem_cons_of_mem n hn2, hr⟩
      | ok es =>
        rw [hfs] at h
        replace h : (walk fs fuel (dirsOf es ++ rest)).map
            (fun ys => filesOf es ++ ys) = some out := h
        cases hw : walk fs fuel (dirsOf es ++ rest) with
        | none => rw [hw] at h; cases h
        | some ys =>
          rw [hw] at h
          simp only [Option.map_some', Option.some.injEq] at h
          subst h
          rcases List.mem_append.mp hp with hp1 | hp2
          · exact ⟨n, List.mem_cons_self n rest,
              ReachFile.here hfs (mem_filesOf.mp hp1)⟩
          · obtain ⟨n2, hn2, hr⟩ := ih (dirsOf es ++ rest) ys hw p hp2
            rcases List.mem_append.mp hn2 with hd | hrest
            · exact ⟨n, List.mem_cons_self n rest,
                ReachFile.step hfs (mem_dirsOf.mp hd) hr⟩
            · exact ⟨n2, List.mem_cons_of_mem n hrest, hr⟩

theorem walk_complete (fs : FS) : ∀ (fuel : Nat) (stack : List Nat)
    (out : List (List Char)), walk fs fuel stack = some out →
    ∀ n ∈ stack, ∀ p, ReachFile fs n p → p ∈ out := by
  intro fuel
  induction fuel with
  | zero =>
    intro stack out h n hn p hr
    cases stack with
    | nil => simp at hn
    | cons n0 rest => cases h
  | succ fuel ih =>
    intro stack out h n hn p hr
    cases stack with
    | nil => simp at hn
    | cons n0 rest =>
      rw [walk] at h
      cases hfs : fs n0 with
      | error e =>
        rw [hfs] at h
        replace h : walk fs fuel rest = some out := h
        rcases List.mem_cons.mp hn with rfl | hn2
        · cases hr with
          | here hok hmem => rw [hfs] at hok; cases hok
          | step hok hdir hr2 => rw [hfs] at hok; cases hok
        · exact ih rest out h n hn2 p hr
      | ok es =>
        rw [hfs] at h
        replace h : (walk fs fuel (dirsOf es ++ rest)).map
            (fun ys => filesOf es ++ ys) = some out := h
        cases hw : walk fs fuel (dirsOf es ++ rest) with
        | none => rw [hw] at h; cases h
        | some ys =>
          rw [hw] at h
          simp only [Option.map_some', Option.some.injEq] at h
          subst h
          rcases List.mem_cons.mp hn with rfl | hn2
          · cases hr with
            | here hok hmem =>
              rw [hfs] at hok
              injection hok with he
              subst he
              exact List.mem_append.mpr (Or.inl (mem_filesOf.mpr hmem))
            | step hok hdir hr2 =>
              rw [hfs] at hok
              injection hok with he
              subst he
              refine List.mem_append.mpr (Or.inr ?_)
              exact ih (dirsOf es ++ rest) ys hw _
                (List.mem_append.mpr (Or.inl (mem_dirsOf.mpr hdir))) p hr2
          · refine List.mem_append.mpr (Or.inr ?_)
            exact ih (dirsOf es ++ rest) ys hw n
              (List.mem_append.mpr (Or.inr hn2)) p hr

/-- A filesystem with a symbolic-link cycle: every node's listing holds a
single entry whose is_dir test is true and which the operating system
resolves back to node 0 (a symlink to the directory itself). -/
def cycFs : FS := fun _ => Except.ok [FEntry.dir 0]

theorem walk_cycFs_eq_none : ∀ (fuel : Nat) (n : Nat) (rest : List Nat),
    walk cycFs fuel (n :: rest) = none := by
  intro fuel
  induction fuel with
  | zero => intro n rest; rfl
  | succ fuel ih =>
    intro n rest
    show (walk cycFs fuel (dirsOf [FEntry.dir 0] ++ rest)).map
      (fun ys => filesOf [FEntry.dir 0] ++ ys) = none
    rw [show dirsOf [FEntry.dir 0] ++ rest = 0 :: rest from rfl]
    rw [ih 0 rest]
    rfl

/-- A small filesystem with a readable root listing one plain file and
one subdirectory that cannot be listed. -/
def exFS : FS := fun n =>
  match n with
  | 0 => Except.ok [FEntry.file ['f'], FEntry.dir 1]
  | _ => Except.error ()

/-- C4 counterexample: on a directory whose listing contains a symbolic
link back to itself (classified a directory by is_dir, which follows
links), the traversal never finishes, for any iteration budget; the
claimed termination in the presence of cyclic symbolic links fails. -/
theorem iterfilepaths_cyclic_counterexample :
    iterfilepaths cycFs 0 1000 = none ∧
    ¬ ∃ fuel out, iterfilepaths cycFs 0 fuel = some out := by
  constructor
  · exact walk_cycFs_eq_none 1000 0 []
  · rintro ⟨fuel, out, hc⟩
    rw [iterfilepaths, walk_cycFs_eq_none fuel 0 []] at hc
    cases hc

/-- C4 (amended): the traverser yields only entries whose is_dir test is
false (never directories); but since is_dir follows symbolic links, a
symlink to a directory is traversed into, and on a cyclic link graph the
traversal never finishes. -/
theorem iterfilepaths_yields_nondirs_follows_links
    (fs : FS) (top fuel : Nat) (out : List (List Char))
    (h : iterfilepaths fs top fuel = some out) :
    (∀ p ∈ out, ReachFile fs top p) ∧
    ¬ ∃ f o, iterfilepaths cycFs 0 f = some o := by
  constructor
  · intro p hp
    obtain ⟨n, hn, hr⟩ := walk_sound fs fuel [top] out h p hp
    rcases List.mem_cons.mp hn with rfl | h2
    · exact hr
    · simp at h2
  · rintro ⟨f, o, hc⟩
    rw [iterfilepaths, walk_cycFs_eq_none f 0 []] at hc
    cases hc

theorem iterfilepaths_yields_nondirs_follows_links_witness :
    (∀ p ∈ [['f']], ReachFile exFS 0 p) ∧
    ¬ ∃ f o, iterfilepaths cycFs 0 f = some o :=
  iterfilepaths_yields_nondirs_follows_links exFS 0 3 [['f']] (by decide)

/-- C5: whenever the traversal finishes, its yields are exactly the files
reachable through listable directories (an unlistable subtree contributes
nothing but removes nothing else); and an unlistable directory on the
stack is skipped silently, the loop continuing with the remaining stack
exactly as if the error had not occurred. -/
theorem iterfilepaths_skips_unreadable_yields_readable
    (fs : FS) (top fuel : Nat) (out : List (List Char))
    (h : iterfilepaths fs top fuel = some out) :
    (∀ p, p ∈ out ↔ ReachFile fs top p) ∧
    (∀ f n rest e, fs n = Except.error e →
      walk fs (f + 1) (n :: rest) = walk fs f rest) := by
  constructor
  · intro p
    constructor
    · intro hp
      obtain ⟨n, hn, hr⟩ := walk_sound fs fuel [top] out h p hp
      rcases List.mem_cons.mp hn with rfl | h2
      · exact hr
      · simp at h2
    · intro hr
      exact walk_complete fs fuel [top] out h top (List.mem_cons_self top []) p hr
  · intro f n rest e he
    rw [walk, he]

theorem iterfilepaths_skips_unreadable_yields_readable_witness :
    (∀ p, p ∈ [['f']] ↔ ReachFile exFS 0 p) ∧
    (∀ f n rest e, exFS n = Except.error e →
      walk exFS (f + 1) (n :: rest) = walk exFS f rest) :=
  iterfilepaths_skips_unreadable_yields_readable exFS 0 3 [['f']] (by decide)

/-- C10: a root that cannot be listed (scandir raises OSError: missing,
not a directory, or unreadable) makes the traverser finish with the empty
yield sequence, raising nothing, under every iteration budget. -/
theorem iterfilepaths_unlistable_root_empty (fs : FS) (top : Nat) (e : Unit)
    (h : fs top = Except.error e) :
    ∀ fuel, iterfilepaths fs top (fuel + 1) = some [] := by
  intro fuel
  rw [iterfilepaths, walk, h]
  rw [walk]

theorem iterfilepaths_unlistable_root_empty_witness :
    exFS 1 = Except.error () ∧
    ∀ fuel, iterfilepaths exFS 1 (fuel + 1) = some [] :=
  ⟨rfl, iterfilepaths_unlistable_root_empty exFS 1 () rfl⟩

/-- as_posix of the path relative to the scan root: the traversed path's
components below the root joined with forward slashes
(`path.relative_to(start).as_posix()`). -/
def joinPosix : List (List Char) → List Char
  | [] => []
  | [c] => c
  | c :: c2 :: cs => c ++ '/' :: joinPosix (c2 :: cs)

/-- CPython's Path.suffix of a final component: the segment from the last
dot to the end, provided that dot is neither the first nor the last
character of the component (dotfiles and trailing dots have no suffix);
empty otherwise.  Computed from the tail of characters after the last
dot (the reversed component's longest dotless head). -/
def pathSuffixOf (name : List Char) : List Char :=
  let afterRev := name.reverse.takeWhile (fun c => decide (c ≠ '.'))
  if afterRev ≠ [] ∧ afterRev.length + 1 < name.length
  then '.' :: afterRev.reverse else []

/-- `get_file_params(start, dentry)` for a dentry at components `rel`
below the root: location is the root-relative POSIX path, name the final
component, ext the name's suffix, size and mtime from `os.stat`
(modelled opaquely; the mtime is normalized to UTC by `make_datetime`). -/
def get_file_params (stat : List (List Char) → Int × Int)
    (rel : List (List Char)) : FileInfo :=
  let name := rel.getLastD []
  ⟨joinPosix rel, name, pathSuffixOf name, (stat rel).1, (stat rel).2⟩

theorem dropWhile_cons_head (p : Char → Bool) :
    ∀ (l : List Char) (c : Char) (t : List Char),
      l.dropWhile p = c :: t → p c = false := by
  intro l
  induction l with
  | nil => intro c t h; cases h
  | cons a as ih =>
    intro c t h
    rw [List.dropWhile_cons] at h
    by_cases hp : p a = true
    · rw [if_pos hp] at h
      exact ih c t h
    · rw [if_neg hp] at h
      injection h with h1 h2
      subst h1
      exact Bool.not_eq_true _ ▸ hp

theorem pathSuffixOf_spec (name : List Char) :
    pathSuffixOf name = [] ∨
    (pathSuffixOf name <:+ name ∧ (pathSuffixOf name).head? = some '.') := by
  rw [pathSuffixOf]
  by_cases hc : name.reverse.takeWhile (fun c => decide (c ≠ '.')) ≠ [] ∧
      (name.reverse.takeWhile (fun c => decide (c ≠ '.'))).length + 1
        < name.length
  · right
    rw [if_pos hc]
    refine ⟨?_, rfl⟩
    have hsplit : name.reverse.takeWhile (fun c => decide (c ≠ '.')) ++
        name.reverse.dropWhile (fun c => decide (c ≠ '.')) = name.reverse :=
      List.takeWhile_append_dropWhile _ _
    cases hd : name.reverse.dropWhile (fun c => decide (c ≠ '.')) with
    | nil =>
      rw [hd, List.append_nil] at hsplit
      have hlen1 :
          (name.reverse.takeWhile (fun c => decide (c ≠ '.'))).length
            = name.length := by
        rw [hsplit, List.length_reverse]
      exact absurd hlen1 (by omega)
    | cons d ds =>
      have hdf : (fun c => decide (c ≠ '.')) d = false :=
        dropWhile_cons_head _ _ d ds hd
      have hdot : d = '.' := by simpa using hdf
      subst hdot
      rw [hd] at hsplit
      have h3 : name
          = (name.reverse.takeWhile (fun c => decide (c ≠ '.')) ++
              '.' :: ds).reverse := by
        rw [hsplit, List.reverse_reverse]
      have h4 : (name.reverse.takeWhile (fun c => decide (c ≠ '.')) ++
            '.' :: ds).reverse
          = ds.reverse ++
            '.' :: (name.reverse.takeWhile (fun c => decide (c ≠ '.'))).reverse := by
        rw [List.reverse_append, List.reverse_cons, List.append_assoc,
          List.singleton_append]
      exact ⟨ds.reverse, (h3.trans h4).symm⟩
  · left
    rw [if_neg hc]

theorem getLastD_suffix_joinPosix : ∀ (rel : List (List Char)),
    rel.getLastD [] <:+ joinPosix rel := by
  intro rel
  induction rel with
  | nil => exact ⟨[], rfl⟩
  | cons c cs ih =>
    cases cs with
    | nil => exact ⟨[], by simp [joinPosix]⟩
    | cons c2 cs2 =>
      have hg : (c :: c2 :: cs2).getLastD [] = (c2 :: cs2).getLastD [] := by
        simp [List.getLastD_cons]
      rw [hg]
      refine List.IsSuffix.trans ih ?_
      show joinPosix (c2 :: cs2) <:+ c ++ '/' :: joinPosix (c2 :: cs2)
      exact ⟨c ++ ['/'], by simp⟩

/-- C8: for every record produced from a traversed path (a non-empty
component chain below the scan root), the ext field is the name's
suffix, and it is either empty or a suffix of the record's location
beginning with a dot — in particular it never carries a leading path
separator. -/
theorem get_file_params_ext_invariant
    (stat : List (List Char) → Int × Int) (rel : List (List Char))
    (_h : rel ≠ []) :
    (get_file_params stat rel).ext
      = pathSuffixOf ((get_file_params stat rel).name) ∧
    ((get_file_params stat rel).ext = [] ∨
      ((get_file_params stat rel).ext <:+ (get_file_params stat rel).location ∧
       ((get_file_params stat rel).ext).head? = some '.')) := by
  refine ⟨rfl, ?_⟩
  show pathSuffixOf (rel.getLastD []) = [] ∨
    (pathSuffixOf (rel.getLastD []) <:+ joinPosix rel ∧
     (pathSuffixOf (rel.getLastD [])).head? = some '.')
  rcases pathSuffixOf_spec (rel.getLastD []) with he | ⟨hs, hh⟩
  · exact Or.inl he
  · exact Or.inr ⟨hs.trans (getLastD_suffix_joinPosix rel), hh⟩

theorem get_file_params_ext_invariant_witness :
    (get_file_params (fun _ => (0, 0)) [['d'], ['b', '.', 't']]).ext
      = pathSuffixOf
          ((get_file_params (fun _ => (0, 0)) [['d'], ['b', '.', 't']]).name) ∧
    ((get_file_params (fun _ => (0, 0)) [['d'], ['b', '.', 't']]).ext = [] ∨
      ((get_file_params (fun _ => (0, 0)) [['d'], ['b', '.', 't']]).ext <:+
        (get_file_params (fun _ => (0, 0)) [['d'], ['b', '.', 't']]).location ∧
       ((get_file_params (fun _ => (0, 0)) [['d'], ['b', '.', 't']]).ext).head?
         = some '.')) :=
  get_file_params_ext_invariant (fun _ => (0, 0)) [['d'], ['b', '.', 't']]
    (by decide)
